import Mathlib

/-!
# Verification of the ethica relationship-weighting and transitive-influence analyzer

Shallow embedding of the analyzer core of the `ethica` repository:

* the two N3 fact stores (`asserted` / `derived`) are embedded as lists of
  subject–predicate–object statements over *clean* element identifiers — the
  constant URI prefix `http://spinoza.org/ethics#` that the source wraps around
  every identifier (and the rdf-syntax URI that stands for the `type` predicate)
  is a bijective encoding and is dropped;
* `Store.getQuads` pattern lookups become list filters, preserving store order;
* JavaScript numbers are embedded as exact rationals (`ℚ`); every constant that
  appears in the source (1.5, 0.2, 5, the weight and base tables) is a rational;
* the recursive traversals of `analyzeElementWeight` are embedded with an
  explicit recursion budget (`fuel`) returning `Option`: `none` models a call
  that would still be running after `fuel` nested calls.  Theorems below show
  the budgets used by the wrappers always suffice, so the wrappers compute the
  same values as the JavaScript recursion.

Definitions follow `src/unnamed/part_003` (the React `App` component holding
`performReasoning`, `findTransitiveChains`, `analyzeElementWeight`) and
`src/ethics-explorer.js` (`getPropositionsWithMultipleProofs`).
-/

/-- A statement (triple) of a fact store: `(subject, predicate, object)` over
clean element identifiers, as in §3 of the design.  Stores are multisets with
iteration order, embedded as lists. -/
structure Stmt where
  subject : String
  predicate : String
  object : String
deriving DecidableEq

/-- A fact store: an ordered multiset of statements.  Two instances exist at
run time, the asserted (`n3Store`) and the derived (`eyeStore`) store. -/
abbrev Store := List Stmt

/-- `store.getQuads(subjectURI, predicateURI, null, null)`: all statements with
the given subject and predicate, in store order. -/
def getQuadsSP (store : Store) (s p : String) : List Stmt :=
  store.filter fun q => q.subject == s && q.predicate == p

/-- `store.getQuads(null, predicateURI, objectURI, null)`: all statements with
the given predicate and object, in store order. -/
def getQuadsPO (store : Store) (p o : String) : List Stmt :=
  store.filter fun q => q.predicate == p && q.object == o

/-- The `originalPredicates` list of `performReasoning`: predicates looked up in
the asserted (`n3`) store, in source order.  (`'type'` is dispatched to the
rdf-syntax namespace in the source; the name is the predicate identity here.) -/
def originalPredicates : List String :=
  ["cites", "refersTo", "mentions", "clearlyfollowsFrom", "evidentFrom",
   "necessarilyFollows", "provedBy", "demonstratedBy", "groundedIn",
   "hasCorollary", "impliesConsequence", "buildsUpon", "appliesResultFrom",
   "refutedByAbsurdity", "contradicts", "partOf", "containsSection",
   "containsElement", "type"]

/-- The `inferredPredicates` list of `performReasoning`: predicates looked up in
the derived (`eye`) store. -/
def inferredPredicates : List String :=
  ["transitivelyDependsOn", "dependsUpon", "circularArgument", "derivedFrom",
   "explainsElement"]

/-- `allPredicates = [...originalPredicates, ...inferredPredicates]`. -/
def allPredicates : List String := originalPredicates ++ inferredPredicates

/-- `storeToUse` of `performReasoning`: derived predicates query the derived
store, all others the asserted store. -/
def storeFor (n3Store eyeStore : Store) (predicate : String) : Store :=
  if inferredPredicates.contains predicate then eyeStore else n3Store

/-- The inverse-name rewriting chain of `performReasoning` (the nested `?:`
expression), ending in the generic `inverse_<predicate>` fallback. -/
def inversePredicate (predicate : String) : String :=
  if predicate = "cites" then "citedBy"
  else if predicate = "refersTo" then "referredToBy"
  else if predicate = "mentions" then "mentionedBy"
  else if predicate = "clearlyfollowsFrom" then "clearlyLeadsTo"
  else if predicate = "evidentFrom" then "makesEvident"
  else if predicate = "necessarilyFollows" then "necessarilyFollowedBy"
  else if predicate = "provedBy" then "proves"
  else if predicate = "demonstratedBy" then "demonstrates"
  else if predicate = "groundedIn" then "grounds"
  else if predicate = "hasCorollary" then "isCorollaryOf"
  else if predicate = "impliesConsequence" then "isConsequenceOf"
  else if predicate = "buildsUpon" then "isBuiltUponBy"
  else if predicate = "appliesResultFrom" then "providesResultTo"
  else if predicate = "refutedByAbsurdity" then "refutes"
  else if predicate = "contradicts" then "contradictedBy"
  else if predicate = "partOf" then "contains"
  else if predicate = "containsSection" then "isSectionOf"
  else if predicate = "containsElement" then "isElementOf"
  else "inverse_" ++ predicate

/-- The predicates that have a registered (non-generic) inverse name: exactly
the branches of the `?:` chain of `inversePredicate`. -/
def invertiblePredicates : List String :=
  ["cites", "refersTo", "mentions", "clearlyfollowsFrom", "evidentFrom",
   "necessarilyFollows", "provedBy", "demonstratedBy", "groundedIn",
   "hasCorollary", "impliesConsequence", "buildsUpon", "appliesResultFrom",
   "refutedByAbsurdity", "contradicts", "partOf", "containsSection",
   "containsElement"]

/-- A record returned by `performReasoning`:
`{subject, predicate, object, inferred}`. -/
structure RelRecord where
  subject : String
  predicate : String
  object : String
  inferred : Bool
deriving DecidableEq

/-- `performReasoning(elementId)`: for every predicate of the vocabulary, the
outward matches `(elementId, predicate, *)` recorded as-is, then for every
predicate the inward matches `(*, predicate, elementId)` recorded with the
predicate rewritten to its inverse name.  The two `forEach` loops pushing onto
`results` are embedded as two left folds appending per predicate. -/
def performReasoning (n3Store eyeStore : Store) (elementId : String) :
    List RelRecord :=
  let outward := allPredicates.foldl (fun results predicate =>
    results ++ (getQuadsSP (storeFor n3Store eyeStore predicate) elementId
        predicate).map fun q =>
      { subject := elementId, predicate := predicate, object := q.object,
        inferred := inferredPredicates.contains predicate }) []
  allPredicates.foldl (fun results predicate =>
    results ++ (getQuadsPO (storeFor n3Store eyeStore predicate) predicate
        elementId).map fun q =>
      { subject := q.subject, predicate := inversePredicate predicate,
        object := elementId,
        inferred := inferredPredicates.contains predicate }) outward

/-- One edge of a chain `path` entry: `{from, to, relationship}` (`from`/`to`
are keywords in Lean, rendered `src`/`dst`). -/
structure ChainStep where
  src : String
  dst : String
  relationship : String
deriving DecidableEq

/-- A record returned by `findTransitiveChains`:
`{type, start, end, relationship, inferred, path}` (`end` is a keyword in
Lean, rendered `stop`). -/
structure ChainRecord where
  type : String
  start : String
  stop : String
  relationship : String
  inferred : Bool
  path : List ChainStep
deriving DecidableEq

/-- `findTransitiveChains(startElementId)`: single-edge chain records built
exclusively from the derived (`eye`) store, for the two dependency predicates,
outward then inward, in the push order of the source. -/
def findTransitiveChains (eyeStore : Store) (startElementId : String) :
    List ChainRecord :=
  ((getQuadsSP eyeStore startElementId "transitivelyDependsOn").map fun q =>
    { type := "transitive_dependency", start := startElementId,
      stop := q.object, relationship := "transitivelyDependsOn",
      inferred := true,
      path := [{ src := startElementId, dst := q.object,
                 relationship := "transitivelyDependsOn" }] })
  ++ ((getQuadsSP eyeStore startElementId "dependsUpon").map fun q =>
    { type := "dependency", start := startElementId, stop := q.object,
      relationship := "dependsUpon", inferred := true,
      path := [{ src := startElementId, dst := q.object,
                 relationship := "dependsUpon" }] })
  ++ ((getQuadsPO eyeStore "transitivelyDependsOn" startElementId).map fun q =>
    { type := "inverse_transitive_dependency", start := q.subject,
      stop := startElementId, relationship := "transitivelyDependsOn",
      inferred := true,
      path := [{ src := q.subject, dst := startElementId,
                 relationship := "transitivelyDependsOn" }] })
  ++ ((getQuadsPO eyeStore "dependsUpon" startElementId).map fun q =>
    { type := "inverse_dependency", start := q.subject,
      stop := startElementId, relationship := "dependsUpon",
      inferred := true,
      path := [{ src := q.subject, dst := startElementId,
                 relationship := "dependsUpon" }] })

/-- The element categories of the catalog (`SpinozaElement.type` in the
source; `axiom` and `lemma` are Lean keywords, rendered `axiomT` / `lemmaT`). -/
inductive ElemType where
  | definition | axiomT | proposition | proof | corollary | note
  | lemmaT | postulate | explanation
deriving DecidableEq

/-- The element catalog (`state.elements : Map<string, SpinozaElement>`),
embedded as an association list from id to category — the only field of an
element the analyzer reads is its `type`. -/
abbrev Catalog := List (String × ElemType)

/-- `relationshipWeights` of `analyzeElementWeight`, in source order. -/
def relationshipWeights : List (String × ℚ) :=
  [("cites", 1), ("necessarilyFollows", 3), ("clearlyfollowsFrom", 2),
   ("provedBy", 2), ("appliesResultFrom", 2), ("refutedByAbsurdity", 1.5),
   ("buildsUpon", 1.5), ("groundedIn", 2), ("demonstratedBy", 2)]

/-- The inbound-weight accumulation of `analyzeElementWeight`:
`analysis.inboundWeight += count * weight` over the weighted predicates. -/
def inboundWeight (store : Store) (elementId : String) : ℚ :=
  relationshipWeights.foldl (fun acc pw =>
    acc + ((getQuadsPO store pw.1 elementId).length : ℚ) * pw.2) 0

/-- The outbound-weight accumulation of `analyzeElementWeight`:
`analysis.outboundWeight += count * weight` over the weighted predicates. -/
def outboundWeight (store : Store) (elementId : String) : ℚ :=
  relationshipWeights.foldl (fun acc pw =>
    acc + ((getQuadsSP store elementId pw.1).length : ℚ) * pw.2) 0

/-- `calculateTransitiveInfluence(currentElement, visited, depth)` with an
explicit recursion budget.  The JavaScript `visited` is a `Set` object mutated
in place and shared by every call of one traversal, so the embedding threads
the set through the nested `forEach` loops and returns it together with the
influence; `none` models a call still running after `fuel` nested calls. -/
def transInfluenceF (store : Store) :
    Nat → String → List String → Nat → Option (ℚ × List String)
  | 0, _, _, _ => none
  | fuel + 1, currentElement, visited, depth =>
    if 4 < depth ∨ visited.contains currentElement then some (0, visited)
    else
      relationshipWeights.foldl (fun acc pw =>
        (getQuadsPO store pw.1 currentElement).foldl (fun acc2 triple =>
          acc2.bind fun st =>
            (transInfluenceF store fuel triple.subject st.2 (depth + 1)).map
              fun r => (st.1 + pw.2 * ((5 : ℚ) - (depth : ℚ)) + r.1, r.2))
          acc)
        (some (0, currentElement :: visited))

/-- `analysis.transitiveInfluence = calculateTransitiveInfluence(elementId,
new Set(), 0)`.  A budget of 6 always suffices: the `depth > 4` guard stops
the recursion five levels below the root (theorem `transInfluenceF_isSome`). -/
def transInfluence (store : Store) (elementId : String) : ℚ :=
  ((transInfluenceF store 6 elementId [] 0).getD (0, [])).1

/-- `calculateDepth(currentElement, visited)` with an explicit recursion
budget.  Each recursive call of the source receives a fresh copy
`new Set(visited)`, so the set is per-path and the function is pure in it;
`none` models a call still running after `fuel` nested calls. -/
def calcDepthF (store : Store) : Nat → String → List String → Option Nat
  | 0, _, _ => none
  | fuel + 1, currentElement, visited =>
    if visited.contains currentElement then some 0
    else
      (relationshipWeights.flatMap fun pw =>
          getQuadsSP store currentElement pw.1).foldl
        (fun acc triple => acc.bind fun maxDepth =>
          (calcDepthF store fuel triple.object
              (currentElement :: visited)).map
            fun depth => max maxDepth (1 + depth))
        (some 0)

/-- `analysis.dependencyDepth = calculateDepth(elementId, new Set())`.  A
budget of `store.length + 1` always suffices: every recursive call adds a new
store subject to the per-path visited set (theorem `calcDepthF_isSome`). -/
def calcDepth (store : Store) (elementId : String) : Nat :=
  (calcDepthF store (store.length + 1) elementId []).getD 0

/-- The `switch (elementType)` base table of `analyzeElementWeight`;
`foundationalBase` stays 0 for a missing element and for the categories the
switch does not mention. -/
def foundationalBase : Option ElemType → ℚ
  | some .definition => 10
  | some .axiomT => 8
  | some .proposition => 3
  | some .proof => 1
  | some .corollary => 2
  | some .note => 0.5
  | _ => 0

/-- The foundational-score computation of `analyzeElementWeight`:
`dependencyRatio` then `Math.max(0, base + inbound*1.5 + transitive*0.2 +
ratio*5)`. -/
def foundationalScoreOf (base inboundW outboundW transitive : ℚ) : ℚ :=
  let dependencyRatio : ℚ :=
    if outboundW = 0 then 1 else min 1 (inboundW / outboundW)
  max 0 (base + inboundW * 1.5 + transitive * 0.2 + dependencyRatio * 5)

/-- One value of the `relationshipBreakdown` map:
`{count, weight, elements}`. -/
structure BreakEntry where
  count : Nat
  weight : ℚ
  elements : List String
deriving DecidableEq

/-- The result object of `analyzeElementWeight` (§3 Weight Analysis Result). -/
structure WeightAnalysis where
  elementId : String
  inboundWeight : ℚ
  outboundWeight : ℚ
  transitiveInfluence : ℚ
  foundationalScore : ℚ
  relationshipBreakdown : List (String × BreakEntry)
  dependencyDepth : Nat
  influenceReach : ℤ
deriving DecidableEq

/-- `analyzeElementWeight(elementId)`: inbound and outbound weights with their
breakdown entries (inserted in predicate order, inbound loop before outbound
loop, only for non-zero counts), transitive influence, foundational score,
dependency depth and influence reach, computed from the asserted store and the
element catalog exactly as in the source. -/
def analyzeElementWeight (elements : Catalog) (n3Store : Store)
    (elementId : String) : WeightAnalysis :=
  let inboundBreakdown := relationshipWeights.foldl (fun acc pw =>
    let inboundTriples := getQuadsPO n3Store pw.1 elementId
    if 0 < inboundTriples.length then
      acc ++ [(pw.1 ++ "_inbound",
        { count := inboundTriples.length,
          weight := (inboundTriples.length : ℚ) * pw.2,
          elements := inboundTriples.map (·.subject) })]
    else acc) []
  let fullBreakdown := relationshipWeights.foldl (fun acc pw =>
    let outboundTriples := getQuadsSP n3Store elementId pw.1
    if 0 < outboundTriples.length then
      acc ++ [(pw.1 ++ "_outbound",
        { count := outboundTriples.length,
          weight := (outboundTriples.length : ℚ) * pw.2,
          elements := outboundTriples.map (·.object) })]
    else acc) inboundBreakdown
  let transitive := transInfluence n3Store elementId
  { elementId := elementId
    inboundWeight := inboundWeight n3Store elementId
    outboundWeight := outboundWeight n3Store elementId
    transitiveInfluence := transitive
    foundationalScore := foundationalScoreOf
      (foundationalBase (elements.lookup elementId))
      (inboundWeight n3Store elementId) (outboundWeight n3Store elementId)
      transitive
    relationshipBreakdown := fullBreakdown
    dependencyDepth := calcDepth n3Store elementId
    influenceReach := round (transitive / 10) }

/-- The regular expression `^(I\.prop\.\d+)` of
`getPropositionsWithMultipleProofs`: the proof id must begin with the literal
`I.prop.` followed by at least one digit; the capture is that literal plus the
maximal leading digit run.  Embedded over the character list of the id. -/
def propOfProofId (proofId : String) : Option String :=
  match proofId.toList with
  | 'I' :: '.' :: 'p' :: 'r' :: 'o' :: 'p' :: '.' :: rest =>
    let digits := rest.takeWhile Char.isDigit
    if digits.isEmpty then none
    else some (String.mk (['I', '.', 'p', 'r', 'o', 'p', '.'] ++ digits))
  | _ => none

/-- `proofCounts.set(prop, (proofCounts.get(prop) || 0) + 1)`: a JavaScript
`Map` preserves first-insertion order of keys, embedded as an association
list; bumping an existing key keeps its position. -/
def bumpCount : List (String × Nat) → String → List (String × Nat)
  | [], k => [(k, 1)]
  | (k', c) :: rest, k =>
    if k' = k then (k', c + 1) :: rest else (k', c) :: bumpCount rest k

/-- One step of the `proofs.forEach` loop of
`getPropositionsWithMultipleProofs`: bump the count of the extracted
proposition prefix, skip ids the regular expression rejects. -/
def bumpMatched (m : List (String × Nat)) (q : Stmt) : List (String × Nat) :=
  match propOfProofId q.subject with
  | some prop => bumpCount m prop
  | none => m

/-- The count stored for a key of the association list, `none` when the key
is absent (`proofCounts.get(prop)` of the source). -/
def getCount : List (String × Nat) → String → Option Nat
  | [], _ => none
  | (k', c) :: rest, k => if k' = k then some c else getCount rest k

/-- Insertion step of the stable descending sort that embeds
`.sort((a, b) => b[1] - a[1])` (JavaScript `Array.prototype.sort` is stable):
an entry goes after every earlier entry with a greater-or-equal count. -/
def insertDesc (x : String × Nat) :
    List (String × Nat) → List (String × Nat)
  | [] => [x]
  | y :: ys => if x.2 ≤ y.2 then y :: insertDesc x ys else x :: y :: ys

/-- Stable descending-by-count sort (see `insertDesc`). -/
def sortDesc (l : List (String × Nat)) : List (String × Nat) :=
  l.foldl (fun acc x => insertDesc x acc) []

/-- `getPropositionsWithMultipleProofs()` of `ethics-explorer.js`: group the
`(*, rdf:type, Proof)` statements of the store by the proposition prefix the
regular expression extracts from their subject, keep the propositions with
more than one proof, and sort descending by proof count. -/
def getPropositionsWithMultipleProofs (store : Store) :
    List (String × Nat) :=
  let proofs := getQuadsPO store "type" "Proof"
  let proofCounts := proofs.foldl bumpMatched []
  sortDesc (proofCounts.filter fun pc => decide (1 < pc.2))

/-- Split a character list at every dot, keeping empty components. -/
def splitDots : List Char → List (List Char)
  | [] => [[]]
  | c :: rest =>
    if c = '.' then [] :: splitDots rest
    else
      match splitDots rest with
      | s :: ss => (c :: s) :: ss
      | [] => [[c]]

/-- Modelled from the spec: the claim's reading of the proposition-number
prefix of a proof id — the id "encodes its owning proposition number
positionally", i.e. the prefix is the first three dot-separated components
(part, category, number) of an id that has a sub-element component. -/
def claimPropOfId (id : String) : Option String :=
  match splitDots id.toList with
  | part :: category :: number :: _ :: _ =>
    some (String.mk (part ++ '.' :: category ++ '.' :: number))
  | _ => none

/-- Modelled from the spec: the multi-proof report as the claim states it —
group every proof-typed statement by the positionally extracted proposition
prefix (`claimPropOfId`), keep counts above one, sort descending. -/
def claimMultiProofs (store : Store) : List (String × Nat) :=
  let proofs := getQuadsPO store "type" "Proof"
  let proofCounts := proofs.foldl (fun m q =>
    match claimPropOfId q.subject with
    | some prop => bumpCount m prop
    | none => m) []
  sortDesc (proofCounts.filter fun pc => decide (1 < pc.2))

/-- Modelled from the spec: the transitive-influence traversal as the claim
describes it — "the visited set is passed by value to sibling recursive
calls", i.e. each recursive call receives (a copy of) the current path's
visited set and mutations never reach a sibling, so the set is per-path and
the traversal is pure in it. -/
def transInfluenceByValue (store : Store) :
    Nat → String → List String → Nat → ℚ
  | 0, _, _, _ => 0
  | fuel + 1, currentElement, visited, depth =>
    if 4 < depth ∨ visited.contains currentElement then 0
    else
      relationshipWeights.foldl (fun acc pw =>
        (getQuadsPO store pw.1 currentElement).foldl (fun acc2 triple =>
          acc2 + pw.2 * ((5 : ℚ) - (depth : ℚ)) +
            transInfluenceByValue store fuel triple.subject
              (currentElement :: visited) (depth + 1))
          acc)
        0

/-- The claim-side reformulation of the `performReasoning` output order: all
outbound records grouped by predicate in vocabulary order, then all
inverse-rewritten inbound records grouped by predicate in vocabulary order,
store order within a group. -/
def queryClaimedOrder (n3Store eyeStore : Store) (elementId : String) :
    List RelRecord :=
  (allPredicates.flatMap fun predicate =>
    (getQuadsSP (storeFor n3Store eyeStore predicate) elementId
        predicate).map fun q =>
      { subject := elementId, predicate := predicate, object := q.object,
        inferred := inferredPredicates.contains predicate })
  ++ (allPredicates.flatMap fun predicate =>
    (getQuadsPO (storeFor n3Store eyeStore predicate) predicate
        elementId).map fun q =>
      { subject := q.subject, predicate := inversePredicate predicate,
        object := elementId,
        inferred := inferredPredicates.contains predicate })

/-- Modelled from the spec: the foundational-score formula exactly as the
claim words it — `max(0, base(type) + inboundWeight × 1.5 +
transitiveInfluence × 0.2 + dependencyRatio × 5)` with the claim's base table
and `dependencyRatio = 1` when the outbound weight is 0, else
`min(1, inboundWeight / outboundWeight)`. -/
def claimFoundationalScore (t : Option ElemType)
    (inboundW outboundW transitive : ℚ) : ℚ :=
  let base : ℚ :=
    match t with
    | some .definition => 10
    | some .axiomT => 8
    | some .proposition => 3
    | some .corollary => 2
    | some .proof => 1
    | some .note => 0.5
    | _ => 0
  let dependencyRatio : ℚ :=
    if outboundW = 0 then 1 else min 1 (inboundW / outboundW)
  max 0 (base + inboundW * 1.5 + transitive * 0.2 + dependencyRatio * 5)

/-- The number of statements of the store whose subject is not yet on the
visited path: the termination measure of the dependency-depth traversal. -/
def depthMeasure (store : Store) (visited : List String) : Nat :=
  (store.filter fun q => !(visited.contains q.subject)).length

attribute [local semireducible] Rat.add Rat.mul Rat.sub Rat.inv Rat.ofScientific

/-! ## General helper lemmas -/

theorem foldl_append_eq {α β : Type} (f : α → List β) :
    ∀ (l : List α) (init : List β),
      l.foldl (fun acc a => acc ++ f a) init = init ++ l.flatMap f := by
  intro l
  induction l with
  | nil => intro init; simp
  | cons a t ih =>
    intro init
    simp only [List.foldl_cons, List.flatMap_cons, ih, List.append_assoc]

theorem foldl_fixed {α β : Type} {f : β → α → β} {l : List α} {init : β}
    (h : ∀ s a, a ∈ l → f s a = s) : l.foldl f init = init := by
  induction l generalizing init with
  | nil => rfl
  | cons a t ih =>
    rw [List.foldl_cons, h init a (by simp)]
    exact ih fun s b hb => h s b (by simp [hb])

theorem foldl_isSome {α σ : Type} {f : Option σ → α → Option σ}
    {l : List α} {init : Option σ} (h0 : init.isSome = true)
    (hf : ∀ s a, a ∈ l → s.isSome = true → (f s a).isSome = true) :
    (l.foldl f init).isSome = true := by
  induction l generalizing init with
  | nil => exact h0
  | cons a t ih =>
    exact ih (hf init a (by simp) h0)
      fun s b hb hs => hf s b (by simp [hb]) hs

theorem length_filter_le_of_imp {α : Type} {p p' : α → Bool} (l : List α)
    (h : ∀ x, p' x = true → p x = true) :
    (l.filter p').length ≤ (l.filter p).length := by
  induction l with
  | nil => simp
  | cons a t ih =>
    by_cases ha' : p' a = true
    · have ha := h a ha'
      simp only [List.filter_cons, ha, ha', if_true, List.length_cons]
      omega
    · rw [Bool.not_eq_true] at ha'
      by_cases ha : p a = true
      · simp only [List.filter_cons, ha, ha', if_true, Bool.false_eq_true,
          if_false, List.length_cons]
        omega
      · rw [Bool.not_eq_true] at ha
        simp only [List.filter_cons, ha, ha', Bool.false_eq_true, if_false]
        exact ih

theorem length_filter_lt_of_mem {α : Type} {p p' : α → Bool} {l : List α}
    {a : α} (hmono : ∀ x, p' x = true → p x = true) (ha : a ∈ l)
    (hpa : p a = true) (hp'a : p' a = false) :
    (l.filter p').length < (l.filter p).length := by
  induction l with
  | nil => cases ha
  | cons b t ih =>
    rcases List.mem_cons.mp ha with rfl | hat
    · simp only [List.filter_cons, hpa, hp'a, if_true, Bool.false_eq_true,
        if_false, List.length_cons]
      exact Nat.lt_succ_of_le (length_filter_le_of_imp t hmono)
    · by_cases hb' : p' b = true
      · have hb := hmono b hb'
        simp only [List.filter_cons, hb, hb', if_true, List.length_cons]
        exact Nat.succ_lt_succ (ih hat)
      · rw [Bool.not_eq_true] at hb'
        by_cases hb : p b = true
        · simp only [List.filter_cons, hb, hb', if_true, Bool.false_eq_true,
            if_false, List.length_cons]
          exact Nat.lt_succ_of_lt (ih hat)
        · rw [Bool.not_eq_true] at hb
          simp only [List.filter_cons, hb, hb', Bool.false_eq_true, if_false]
          exact ih hat

/-! ## Query engine lemmas -/

theorem performReasoning_eq (n3Store eyeStore : Store) (elementId : String) :
    performReasoning n3Store eyeStore elementId =
      (allPredicates.flatMap fun predicate =>
        (getQuadsSP (storeFor n3Store eyeStore predicate) elementId
            predicate).map fun q =>
          { subject := elementId, predicate := predicate, object := q.object,
            inferred := inferredPredicates.contains predicate })
      ++ (allPredicates.flatMap fun predicate =>
        (getQuadsPO (storeFor n3Store eyeStore predicate) predicate
            elementId).map fun q =>
          { subject := q.subject, predicate := inversePredicate predicate,
            object := elementId,
            inferred := inferredPredicates.contains predicate }) := by
  unfold performReasoning
  rw [foldl_append_eq, foldl_append_eq, List.nil_append]

theorem getQuadsSP_eq_nil {store : Store} {s : String}
    (h : ∀ q ∈ store, q.subject ≠ s) (p : String) :
    getQuadsSP store s p = [] := by
  unfold getQuadsSP
  rw [List.filter_eq_nil_iff]
  intro q hq
  simp [h q hq]

theorem getQuadsPO_eq_nil {store : Store} {o : String}
    (h : ∀ q ∈ store, q.object ≠ o) (p : String) :
    getQuadsPO store p o = [] := by
  unfold getQuadsPO
  rw [List.filter_eq_nil_iff]
  intro q hq
  simp [h q hq]

theorem mem_getQuadsSP {store : Store} {s p : String} {q : Stmt} :
    q ∈ getQuadsSP store s p ↔ q ∈ store ∧ q.subject = s ∧ q.predicate = p := by
  unfold getQuadsSP
  rw [List.mem_filter]
  simp

theorem mem_getQuadsPO {store : Store} {p o : String} {q : Stmt} :
    q ∈ getQuadsPO store p o ↔ q ∈ store ∧ q.predicate = p ∧ q.object = o := by
  unfold getQuadsPO
  rw [List.mem_filter]
  simp

/-! ## Claim theorems: query engine -/

/-- C10: for every element id `e`, the list returned by the query operation is
ordered — all outbound records come before all inverse-rewritten inbound
records, and within each direction the records are grouped by predicate in the
fixed vocabulary-list order, preserving store iteration order within one
predicate: the push-based `performReasoning` equals the claim-side grouped
concatenation `queryClaimedOrder`. -/
theorem query_order_grouped (n3Store eyeStore : Store) (e : String) :
    performReasoning n3Store eyeStore e = queryClaimedOrder n3Store eyeStore e := by
  rw [performReasoning_eq]
  rfl

/-- C8: every record returned by `findChains` is sourced from the derived
store (its edge is a derived-store statement and it is flagged inferred), and
with an empty derived store `findChains` returns `[]` for every element id. -/
theorem find_chains_derived_only :
    (∀ e, findTransitiveChains [] e = []) ∧
    ∀ (eyeStore : Store) (e : String) (c : ChainRecord),
      c ∈ findTransitiveChains eyeStore e →
      c.inferred = true ∧ ∃ q ∈ eyeStore, q.subject = c.start ∧
        q.predicate = c.relationship ∧ q.object = c.stop := by
  constructor
  · intro e; rfl
  · intro eye e c hc
    unfold findTransitiveChains at hc
    rcases List.mem_append.mp hc with h | h
    · rcases List.mem_append.mp h with h' | h'
      · rcases List.mem_append.mp h' with h'' | h''
        · obtain ⟨q, hq, rfl⟩ := List.mem_map.mp h''
          obtain ⟨hqs, hsub, hpred⟩ := mem_getQuadsSP.mp hq
          exact ⟨rfl, q, hqs, hsub, hpred, rfl⟩
        · obtain ⟨q, hq, rfl⟩ := List.mem_map.mp h''
          obtain ⟨hqs, hsub, hpred⟩ := mem_getQuadsSP.mp hq
          exact ⟨rfl, q, hqs, hsub, hpred, rfl⟩
      · obtain ⟨q, hq, rfl⟩ := List.mem_map.mp h'
        obtain ⟨hqs, hpred, hobj⟩ := mem_getQuadsPO.mp hq
        exact ⟨rfl, q, hqs, rfl, hpred, hobj⟩
    · obtain ⟨q, hq, rfl⟩ := List.mem_map.mp h
      obtain ⟨hqs, hpred, hobj⟩ := mem_getQuadsPO.mp hq
      exact ⟨rfl, q, hqs, rfl, hpred, hobj⟩

theorem find_chains_derived_only_witness :
    findTransitiveChains [] "Z" = [] ∧
    ((⟨"transitive_dependency", "A", "B", "transitivelyDependsOn", true,
        [⟨"A", "B", "transitivelyDependsOn"⟩]⟩ : ChainRecord).inferred = true ∧
      ∃ q ∈ ([⟨"A", "transitivelyDependsOn", "B"⟩] : Store),
        q.subject = "A" ∧ q.predicate = "transitivelyDependsOn" ∧
        q.object = "B") :=
  ⟨find_chains_derived_only.1 "Z",
   find_chains_derived_only.2 [⟨"A", "transitivelyDependsOn", "B"⟩] "A"
     ⟨"transitive_dependency", "A", "B", "transitivelyDependsOn", true,
      [⟨"A", "B", "transitivelyDependsOn"⟩]⟩ (by decide)⟩

/-- C9: every record returned by the query operation corresponds to a store
statement in which the queried element is either the subject (outbound record,
predicate reported un-rewritten) or the object (inbound record, predicate
rewritten to its inverse); no returned record has an underlying statement that
does not mention the element. -/
theorem query_records_mention_element (n3Store eyeStore : Store) (e : String)
    (r : RelRecord) (hr : r ∈ performReasoning n3Store eyeStore e) :
    ∃ p, p ∈ allPredicates ∧
      ((r.subject = e ∧ r.predicate = p ∧
          (⟨e, p, r.object⟩ : Stmt) ∈ storeFor n3Store eyeStore p) ∨
       (r.object = e ∧ r.predicate = inversePredicate p ∧
          (⟨r.subject, p, e⟩ : Stmt) ∈ storeFor n3Store eyeStore p)) := by
  rw [performReasoning_eq] at hr
  rcases List.mem_append.mp hr with h | h
  · obtain ⟨p, hp, hmem⟩ := List.mem_flatMap.mp h
    obtain ⟨q, hq, rfl⟩ := List.mem_map.mp hmem
    obtain ⟨hqs, hsub, hpred⟩ := mem_getQuadsSP.mp hq
    refine ⟨p, hp, Or.inl ⟨rfl, rfl, ?_⟩⟩
    have : (⟨e, p, q.object⟩ : Stmt) = q := by
      cases q
      simp_all
    rw [this]
    exact hqs
  · obtain ⟨p, hp, hmem⟩ := List.mem_flatMap.mp h
    obtain ⟨q, hq, rfl⟩ := List.mem_map.mp hmem
    obtain ⟨hqs, hpred, hobj⟩ := mem_getQuadsPO.mp hq
    refine ⟨p, hp, Or.inr ⟨rfl, rfl, ?_⟩⟩
    have : (⟨q.subject, p, e⟩ : Stmt) = q := by
      cases q
      simp_all
    rw [this]
    exact hqs

theorem query_records_mention_element_witness :
    ∃ p, p ∈ allPredicates ∧
      (((⟨"A", "cites", "B", false⟩ : RelRecord).subject = "A" ∧
          (⟨"A", "cites", "B", false⟩ : RelRecord).predicate = p ∧
          (⟨"A", p, (⟨"A", "cites", "B", false⟩ : RelRecord).object⟩ : Stmt) ∈
            storeFor [⟨"A", "cites", "B"⟩] [] p) ∨
       ((⟨"A", "cites", "B", false⟩ : RelRecord).object = "A" ∧
          (⟨"A", "cites", "B", false⟩ : RelRecord).predicate =
            inversePredicate p ∧
          (⟨(⟨"A", "cites", "B", false⟩ : RelRecord).subject, p, "A"⟩ : Stmt) ∈
            storeFor [⟨"A", "cites", "B"⟩] [] p)) :=
  query_records_mention_element [⟨"A", "cites", "B"⟩] [] "A"
    ⟨"A", "cites", "B", false⟩ (by decide)

theorem invertible_mem_all : ∀ p ∈ invertiblePredicates, p ∈ allPredicates := by
  decide

theorem invertible_not_inferred :
    ∀ p ∈ invertiblePredicates, inferredPredicates.contains p = false := by
  decide

theorem inversePredicate_of_not_invertible {p : String}
    (h : p ∉ invertiblePredicates) : inversePredicate p = "inverse_" ++ p := by
  simp only [invertiblePredicates, List.mem_cons, List.not_mem_nil, or_false,
    not_or] at h
  obtain ⟨h1, h2, h3, h4, h5, h6, h7, h8, h9, h10, h11, h12, h13, h14, h15,
    h16, h17, h18⟩ := h
  simp [inversePredicate, h1, h2, h3, h4, h5, h6, h7, h8, h9, h10, h11, h12,
    h13, h14, h15, h16, h17, h18]

/-- C5: for every asserted statement `(a, p, b)` whose predicate has a
registered inverse, `query(b)` contains the inbound record
`{subject: a, predicate: inverse of p, object: b, inferred: false}`; and for
an inbound match on any vocabulary predicate without a registered inverse the
record's predicate is the generic `inverse_<predicate>` form. -/
theorem inverse_rewriting_records (n3Store eyeStore : Store) (a p b : String) :
    (p ∈ invertiblePredicates → (⟨a, p, b⟩ : Stmt) ∈ n3Store →
      (⟨a, inversePredicate p, b, false⟩ : RelRecord) ∈
        performReasoning n3Store eyeStore b) ∧
    (p ∈ allPredicates → p ∉ invertiblePredicates →
      (⟨a, p, b⟩ : Stmt) ∈ storeFor n3Store eyeStore p →
      (⟨a, "inverse_" ++ p, b, inferredPredicates.contains p⟩ : RelRecord) ∈
        performReasoning n3Store eyeStore b) := by
  constructor
  · intro hp hmem
    have hcontains := invertible_not_inferred p hp
    have hstore : (⟨a, p, b⟩ : Stmt) ∈ storeFor n3Store eyeStore p := by
      unfold storeFor
      rw [hcontains]
      simpa using hmem
    rw [performReasoning_eq]
    refine List.mem_append.mpr (Or.inr (List.mem_flatMap.mpr
      ⟨p, invertible_mem_all p hp, List.mem_map.mpr
        ⟨⟨a, p, b⟩, mem_getQuadsPO.mpr ⟨hstore, rfl, rfl⟩, ?_⟩⟩))
    rw [hcontains]
  · intro hall hnot hstore
    rw [performReasoning_eq]
    refine List.mem_append.mpr (Or.inr (List.mem_flatMap.mpr
      ⟨p, hall, List.mem_map.mpr
        ⟨⟨a, p, b⟩, mem_getQuadsPO.mpr ⟨hstore, rfl, rfl⟩, ?_⟩⟩))
    simp [inversePredicate_of_not_invertible hnot]

theorem inverse_rewriting_records_witness :
    ((⟨"A", inversePredicate "cites", "B", false⟩ : RelRecord) ∈
      performReasoning [⟨"A", "cites", "B"⟩] [] "B") ∧
    ((⟨"C", "inverse_" ++ "type", "D",
        inferredPredicates.contains "type"⟩ : RelRecord) ∈
      performReasoning [⟨"C", "type", "D"⟩] [] "D") :=
  ⟨(inverse_rewriting_records [⟨"A", "cites", "B"⟩] [] "A" "cites" "B").1
     (by decide) (by decide),
   (inverse_rewriting_records [⟨"C", "type", "D"⟩] [] "C" "type" "D").2
     (by decide) (by decide) (by decide)⟩

/-! ## Claim theorems: weight analyzer -/

/-- C2: for every element id, `analyze` returns a foundational score equal to
`max(0, base(type) + inboundWeight × 1.5 + transitiveInfluence × 0.2 +
dependencyRatio × 5)` with the fixed base table (definition 10, axiom 8,
proposition 3, corollary 2, proof 1, note 0.5, anything else 0) and
`dependencyRatio = 1` when the outbound weight is 0, else
`min(1, inboundWeight / outboundWeight)`. -/
theorem analyze_foundational_score_formula (cat : Catalog) (store : Store)
    (e : String) :
    (analyzeElementWeight cat store e).foundationalScore =
      claimFoundationalScore (cat.lookup e) (inboundWeight store e)
        (outboundWeight store e) (transInfluence store e) := by
  show foundationalScoreOf (foundationalBase (cat.lookup e))
      (inboundWeight store e) (outboundWeight store e)
      (transInfluence store e) = _
  rcases h : cat.lookup e with _ | t
  · rfl
  · cases t <;> rfl

/-- C7: holding the base value (element type), the outbound weight and the
transitive influence fixed, the foundational score is monotonically
non-decreasing in the inbound weight (the outbound weight, a sum of
nonnegative terms in the code, is assumed nonnegative). -/
theorem foundational_score_monotone_inbound (base outW ti w1 w2 : ℚ)
    (houtW : 0 ≤ outW) (h : w1 ≤ w2) :
    foundationalScoreOf base w1 outW ti ≤ foundationalScoreOf base w2 outW ti := by
  unfold foundationalScoreOf
  apply max_le_max le_rfl
  have h15 : w1 * 1.5 ≤ w2 * 1.5 := by
    have : (0 : ℚ) ≤ 1.5 := by norm_num
    exact mul_le_mul_of_nonneg_right h this
  by_cases h0 : outW = 0
  · simp only [h0, if_true]
    linarith
  · have hpos : 0 < outW := lt_of_le_of_ne houtW (Ne.symm h0)
    simp only [h0, if_false]
    have hdiv : w1 / outW ≤ w2 / outW := by
      gcongr
    have hmin : min 1 (w1 / outW) ≤ min 1 (w2 / outW) := min_le_min le_rfl hdiv
    have hmin5 : min 1 (w1 / outW) * 5 ≤ min 1 (w2 / outW) * 5 := by linarith
    linarith

theorem foundational_score_monotone_inbound_witness :
    (0 : ℚ) ≤ 2 ∧ (1 : ℚ) ≤ 4 ∧
    foundationalScoreOf 3 1 2 0 ≤ foundationalScoreOf 3 4 2 0 :=
  ⟨by norm_num, by norm_num,
   foundational_score_monotone_inbound 3 2 0 1 4 (by norm_num) (by norm_num)⟩

/-! ## Termination of the recursive traversals -/

theorem depthMeasure_lt {store : Store} {visited : List String} {e : String}
    (he : visited.contains e = false) {q : Stmt} (hq : q ∈ store)
    (hsub : q.subject = e) :
    depthMeasure store (e :: visited) < depthMeasure store visited := by
  unfold depthMeasure
  refine length_filter_lt_of_mem ?_ hq ?_ ?_
  · intro x hx
    simp only [List.contains_cons, Bool.not_eq_eq_eq_not, Bool.not_true,
      Bool.or_eq_false_iff] at hx ⊢
    exact hx.2
  · rw [hsub, he]
    rfl
  · simp [hsub, List.contains_cons]

theorem transInfluenceF_isSome (store : Store) :
    ∀ (fuel depth : Nat) (e : String) (visited : List String),
      5 - depth < fuel →
      (transInfluenceF store fuel e visited depth).isSome = true := by
  intro fuel
  induction fuel with
  | zero => intro depth e visited h; omega
  | succ n ih =>
    intro depth e visited h
    rw [transInfluenceF]
    split
    · simp
    · rename_i hguard
      have hdepth : depth ≤ 4 := by
        rcases Nat.lt_or_ge 4 depth with h4 | h4
        · exact absurd (Or.inl h4) hguard
        · exact h4
      apply foldl_isSome (by simp)
      intro s pw hpw hs
      apply foldl_isSome hs
      intro s2 triple htr hs2
      rcases s2 with _ | st
      · simp at hs2
      · simp only [Option.some_bind]
        have hrec : (transInfluenceF store n triple.subject st.2
            (depth + 1)).isSome = true :=
          ih (depth + 1) triple.subject st.2 (by omega)
        rcases Option.isSome_iff_exists.mp hrec with ⟨r, hr⟩
        simp [hr]

theorem calcDepthF_isSome (store : Store) :
    ∀ (fuel : Nat) (e : String) (visited : List String),
      depthMeasure store visited < fuel →
      (calcDepthF store fuel e visited).isSome = true := by
  intro fuel
  induction fuel with
  | zero => intro e visited h; omega
  | succ n ih =>
    intro e visited h
    rw [calcDepthF]
    split
    · simp
    · rename_i hc
      rw [Bool.not_eq_true] at hc
      apply foldl_isSome (by simp)
      intro s triple htr hs
      obtain ⟨pw, hpw, htq⟩ := List.mem_flatMap.mp htr
      obtain ⟨hqstore, hsub, hpred⟩ := mem_getQuadsSP.mp htq
      rcases s with _ | m
      · simp at hs
      · simp only [Option.some_bind]
        have hlt := depthMeasure_lt hc hqstore hsub
        have hrec : (calcDepthF store n triple.object
            (e :: visited)).isSome = true :=
          ih triple.object (e :: visited) (by omega)
        rcases Option.isSome_iff_exists.mp hrec with ⟨r, hr⟩
        simp [hr]

/-- C6: for every store (in particular stores containing a directed cycle such
as `(A, necessarilyFollows, B)`, `(B, necessarilyFollows, A)`) and every
element id, both recursive traversals of `analyze` terminate: the
transitive-influence traversal within a recursion budget of 6 nested calls
(its depth cap of 4 plus the visited set), and the dependency-depth traversal
within a budget of one call per store statement plus one (its per-path visited
set alone — it has no depth cap); on the two-statement cycle both compute
concrete values. -/
theorem traversals_terminate (store : Store) (e : String) :
    (transInfluenceF store 6 e [] 0).isSome = true ∧
    (calcDepthF store (store.length + 1) e []).isSome = true ∧
    transInfluence [⟨"A", "necessarilyFollows", "B"⟩,
      ⟨"B", "necessarilyFollows", "A"⟩] "A" = 27 ∧
    calcDepth [⟨"A", "necessarilyFollows", "B"⟩,
      ⟨"B", "necessarilyFollows", "A"⟩] "A" = 2 := by
  refine ⟨transInfluenceF_isSome store 6 0 e [] (by omega),
    calcDepthF_isSome store (store.length + 1) e [] ?_, by decide, by decide⟩
  have hle : depthMeasure store [] ≤ store.length := List.length_filter_le _ _
  omega

/-- C3: an element id that occurs in no statement of either store and has no
catalog entry produces empty results from every public query operation rather
than a failure: `query` and `findChains` return `[]`, and `analyze` returns
zero weights, zero transitive influence, an empty relationship breakdown,
zero dependency depth — and the constant foundational score
`max(0, 0 + 0 + 0 + 1·5) = 5` an isolated element always gets. -/
theorem unknown_element_empty_results (cat : Catalog)
    (n3Store eyeStore : Store) (e : String)
    (hn3 : ∀ q ∈ n3Store, q.subject ≠ e ∧ q.object ≠ e)
    (heye : ∀ q ∈ eyeStore, q.subject ≠ e ∧ q.object ≠ e)
    (hcat : cat.lookup e = none) :
    performReasoning n3Store eyeStore e = [] ∧
    findTransitiveChains eyeStore e = [] ∧
    (analyzeElementWeight cat n3Store e).inboundWeight = 0 ∧
    (analyzeElementWeight cat n3Store e).outboundWeight = 0 ∧
    (analyzeElementWeight cat n3Store e).transitiveInfluence = 0 ∧
    (analyzeElementWeight cat n3Store e).relationshipBreakdown = [] ∧
    (analyzeElementWeight cat n3Store e).dependencyDepth = 0 ∧
    (analyzeElementWeight cat n3Store e).foundationalScore = 5 := by
  have hSPn3 : ∀ p, getQuadsSP n3Store e p = [] :=
    getQuadsSP_eq_nil fun q hq => (hn3 q hq).1
  have hPOn3 : ∀ p, getQuadsPO n3Store p e = [] :=
    getQuadsPO_eq_nil fun q hq => (hn3 q hq).2
  have hSPeye : ∀ p, getQuadsSP eyeStore e p = [] :=
    getQuadsSP_eq_nil fun q hq => (heye q hq).1
  have hPOeye : ∀ p, getQuadsPO eyeStore p e = [] :=
    getQuadsPO_eq_nil fun q hq => (heye q hq).2
  have hSPboth : ∀ p, getQuadsSP (storeFor n3Store eyeStore p) e p = [] := by
    intro p
    unfold storeFor
    split
    · exact hSPeye p
    · exact hSPn3 p
  have hPOboth : ∀ p, getQuadsPO (storeFor n3Store eyeStore p) p e = [] := by
    intro p
    unfold storeFor
    split
    · exact hPOeye p
    · exact hPOn3 p
  have hquery : performReasoning n3Store eyeStore e = [] := by
    rw [performReasoning_eq, List.append_eq_nil]
    constructor
    · rw [List.flatMap_eq_nil_iff]
      intro p hp
      rw [hSPboth p]
      rfl
    · rw [List.flatMap_eq_nil_iff]
      intro p hp
      rw [hPOboth p]
      rfl
  have hchains : findTransitiveChains eyeStore e = [] := by
    unfold findTransitiveChains
    rw [hSPeye "transitivelyDependsOn", hSPeye "dependsUpon",
      hPOeye "transitivelyDependsOn", hPOeye "dependsUpon"]
    rfl
  have hin : inboundWeight n3Store e = 0 := by
    unfold inboundWeight
    rw [foldl_fixed]
    intro s pw hpw
    rw [hPOn3 pw.1]
    simp
  have hout : outboundWeight n3Store e = 0 := by
    unfold outboundWeight
    rw [foldl_fixed]
    intro s pw hpw
    rw [hSPn3 pw.1]
    simp
  have htrans : transInfluence n3Store e = 0 := by
    unfold transInfluence
    rw [show (6 : Nat) = 5 + 1 from rfl, transInfluenceF]
    rw [if_neg (by simp)]
    rw [foldl_fixed]
    · rfl
    · intro s pw hpw
      rw [hPOn3 pw.1]
      rfl
  have hdepth : calcDepth n3Store e = 0 := by
    unfold calcDepth
    rw [calcDepthF]
    rw [if_neg (by simp)]
    have hflat : (relationshipWeights.flatMap fun pw =>
        getQuadsSP n3Store e pw.1) = [] := by
      rw [List.flatMap_eq_nil_iff]
      intro pw hpw
      exact hSPn3 pw.1
    rw [hflat]
    rfl
  have hbreak :
      (analyzeElementWeight cat n3Store e).relationshipBreakdown = [] := by
    simp only [analyzeElementWeight]
    rw [foldl_fixed, foldl_fixed]
    · intro s pw hpw
      rw [hPOn3 pw.1]
      simp
    · intro s pw hpw
      rw [hSPn3 pw.1]
      simp
  refine ⟨hquery, hchains, hin, hout, htrans, hbreak, hdepth, ?_⟩
  have hscore : (analyzeElementWeight cat n3Store e).foundationalScore =
      foundationalScoreOf (foundationalBase (cat.lookup e))
        (inboundWeight n3Store e) (outboundWeight n3Store e)
        (transInfluence n3Store e) := by
    simp only [analyzeElementWeight]
  rw [hscore, hcat, hin, hout, htrans]
  norm_num [foundationalScoreOf, foundationalBase]

theorem unknown_element_empty_results_witness :
    performReasoning [⟨"A", "cites", "B"⟩] [] "Z" = [] ∧
    findTransitiveChains [] "Z" = [] ∧
    (analyzeElementWeight [("A", ElemType.proposition)]
      [⟨"A", "cites", "B"⟩] "Z").inboundWeight = 0 ∧
    (analyzeElementWeight [("A", ElemType.proposition)]
      [⟨"A", "cites", "B"⟩] "Z").outboundWeight = 0 ∧
    (analyzeElementWeight [("A", ElemType.proposition)]
      [⟨"A", "cites", "B"⟩] "Z").transitiveInfluence = 0 ∧
    (analyzeElementWeight [("A", ElemType.proposition)]
      [⟨"A", "cites", "B"⟩] "Z").relationshipBreakdown = [] ∧
    (analyzeElementWeight [("A", ElemType.proposition)]
      [⟨"A", "cites", "B"⟩] "Z").dependencyDepth = 0 ∧
    (analyzeElementWeight [("A", ElemType.proposition)]
      [⟨"A", "cites", "B"⟩] "Z").foundationalScore = 5 :=
  unknown_element_empty_results [("A", ElemType.proposition)]
    [⟨"A", "cites", "B"⟩] [] "Z" (by decide) (by decide) (by decide)

/-- C1 counterexample: the claim states the transitive-influence visited set
is passed by value to sibling recursive calls, so that an element expanded in
one branch is expanded again in a sibling branch.  On the store below, element
`X` is reachable from `R` through the sibling branches `B` and `C`; the code's
traversal (`transInfluence`, one set shared by reference and mutated in place)
differs from the by-value traversal the claim describes
(`transInfluenceByValue`), refuting the claim. -/
theorem transitive_visited_by_value_refuted :
    transInfluence
      [⟨"B", "cites", "R"⟩, ⟨"C", "cites", "R"⟩, ⟨"X", "cites", "B"⟩,
       ⟨"X", "cites", "C"⟩, ⟨"Y", "cites", "X"⟩] "R" ≠
    transInfluenceByValue
      [⟨"B", "cites", "R"⟩, ⟨"C", "cites", "R"⟩, ⟨"X", "cites", "B"⟩,
       ⟨"X", "cites", "C"⟩, ⟨"Y", "cites", "X"⟩] 6 "R" [] 0 := by decide

/-- C1 amended: the visited set of the transitive-influence traversal is a
single set shared by reference across sibling recursive calls and mutated in
place, so an element expanded in one branch is never expanded again in a
sibling branch of the same traversal.  On the store of the counterexample the
code yields 21 — `X`'s subtree (worth 3) is counted only under `B`, and the
second reach of `X` under `C` contributes only its direct edge weight — while
by-value sibling revisiting would yield 24. -/
theorem transitive_visited_shared_amended :
    transInfluence
      [⟨"B", "cites", "R"⟩, ⟨"C", "cites", "R"⟩, ⟨"X", "cites", "B"⟩,
       ⟨"X", "cites", "C"⟩, ⟨"Y", "cites", "X"⟩] "R" = 21 ∧
    transInfluenceByValue
      [⟨"B", "cites", "R"⟩, ⟨"C", "cites", "R"⟩, ⟨"X", "cites", "B"⟩,
       ⟨"X", "cites", "C"⟩, ⟨"Y", "cites", "X"⟩] 6 "R" [] 0 = 24 := by decide

/-! ## Multi-proof report lemmas -/

theorem getCount_bumpCount (m : List (String × Nat)) (k p : String) :
    getCount (bumpCount m k) p =
      if p = k then some ((getCount m k).getD 0 + 1) else getCount m p := by
  induction m with
  | nil =>
    by_cases hpk : p = k
    · subst hpk
      simp [bumpCount, getCount]
    · simp [bumpCount, getCount, hpk, Ne.symm hpk]
  | cons hd rest ih =>
    obtain ⟨k', c⟩ := hd
    by_cases hk : k' = k
    · subst hk
      by_cases hpk : p = k'
      · subst hpk
        simp [bumpCount, getCount]
      · simp [bumpCount, getCount, hpk, Ne.symm hpk]
    · by_cases hpk' : k' = p
      · subst hpk'
        simp [bumpCount, getCount, hk, Ne.symm hk]
      · simp [bumpCount, getCount, hk, hpk', ih]

theorem mem_keys_bumpCount {m : List (String × Nat)} {k p : String}
    (h : p ∈ (bumpCount m k).map Prod.fst) :
    p ∈ m.map Prod.fst ∨ p = k := by
  induction m with
  | nil =>
    rw [show bumpCount [] k = [(k, 1)] from rfl] at h
    rcases List.mem_map.mp h with ⟨pc, hpc, rfl⟩
    rcases List.mem_cons.mp hpc with rfl | hfalse
    · exact Or.inr rfl
    · cases hfalse
  | cons hd rest ih =>
    obtain ⟨k', c⟩ := hd
    by_cases hk : k' = k
    · subst hk
      rw [show bumpCount ((k', c) :: rest) k' = (k', c + 1) :: rest
        from by simp [bumpCount]] at h
      rw [List.map_cons, List.mem_cons] at h
      rcases h with rfl | h
      · exact Or.inl (by simp)
      · exact Or.inl (List.mem_cons.mpr (Or.inr h))
    · rw [show bumpCount ((k', c) :: rest) k = (k', c) :: bumpCount rest k
        from by simp [bumpCount, hk]] at h
      rw [List.map_cons, List.mem_cons] at h
      rcases h with rfl | h
      · exact Or.inl (by simp)
      · rcases ih h with h2 | h2
        · exact Or.inl (List.mem_cons.mpr (Or.inr h2))
        · exact Or.inr h2

theorem keysNodup_bumpCount {m : List (String × Nat)} {k : String}
    (h : (m.map Prod.fst).Nodup) : ((bumpCount m k).map Prod.fst).Nodup := by
  induction m with
  | nil => simp [bumpCount]
  | cons hd rest ih =>
    obtain ⟨k', c⟩ := hd
    rw [List.map_cons, List.nodup_cons] at h
    by_cases hk : k' = k
    · subst hk
      simpa [bumpCount] using h
    · rw [show bumpCount ((k', c) :: rest) k = (k', c) :: bumpCount rest k
        from by simp [bumpCount, hk]]
      rw [List.map_cons, List.nodup_cons]
      refine ⟨fun hmem => ?_, ih h.2⟩
      rcases mem_keys_bumpCount hmem with h' | h'
      · exact h.1 h'
      · exact hk h'

theorem mem_iff_getCount {m : List (String × Nat)} {p : String} {n : Nat}
    (h : (m.map Prod.fst).Nodup) : (p, n) ∈ m ↔ getCount m p = some n := by
  induction m with
  | nil => simp [getCount]
  | cons hd rest ih =>
    obtain ⟨k', c⟩ := hd
    rw [List.map_cons, List.nodup_cons] at h
    by_cases hp : k' = p
    · subst hp
      rw [show getCount ((k', c) :: rest) k' = some c
        from by simp [getCount]]
      constructor
      · intro hmem
        rcases List.mem_cons.mp hmem with heq | hmem'
        · rw [Prod.mk.injEq] at heq
          rw [heq.2]
        · exact absurd (List.mem_map_of_mem Prod.fst hmem') h.1
      · intro hsome
        rw [Option.some_inj] at hsome
        exact List.mem_cons.mpr (Or.inl (by rw [hsome]))
    · rw [show getCount ((k', c) :: rest) p = getCount rest p
        from by simp [getCount, hp]]
      rw [← ih h.2]
      constructor
      · intro hmem
        rcases List.mem_cons.mp hmem with heq | hmem'
        · rw [Prod.mk.injEq] at heq
          exact absurd heq.1.symm hp
        · exact hmem'
      · intro hm
        exact List.mem_cons.mpr (Or.inr hm)

theorem keysNodup_foldl_bumpMatched (quads : List Stmt) :
    ∀ m : List (String × Nat), (m.map Prod.fst).Nodup →
      ((quads.foldl bumpMatched m).map Prod.fst).Nodup := by
  induction quads with
  | nil => intro m h; exact h
  | cons q t ih =>
    intro m h
    rw [List.foldl_cons]
    apply ih
    unfold bumpMatched
    rcases propOfProofId q.subject with _ | k
    · exact h
    · exact keysNodup_bumpCount h

theorem getD_foldl_bumpMatched (quads : List Stmt) :
    ∀ (m : List (String × Nat)) (p : String),
      (getCount (quads.foldl bumpMatched m) p).getD 0 =
        (getCount m p).getD 0 +
          quads.countP (fun q => propOfProofId q.subject == some p) := by
  induction quads with
  | nil => intro m p; simp
  | cons q t ih =>
    intro m p
    rw [List.foldl_cons, ih, List.countP_cons]
    rcases hq : propOfProofId q.subject with _ | k
    · simp [bumpMatched, hq]
    · by_cases hpk : p = k
      · subst hpk
        simp [bumpMatched, hq, getCount_bumpCount]
        omega
      · have : (some k == some p) = false := by
          simp
          exact fun h => hpk h.symm
        simp [bumpMatched, hq, getCount_bumpCount, hpk, this]

theorem none_foldl_bumpMatched (quads : List Stmt) :
    ∀ (m : List (String × Nat)) (p : String),
      getCount (quads.foldl bumpMatched m) p = none ↔
        getCount m p = none ∧
          quads.countP (fun q => propOfProofId q.subject == some p) = 0 := by
  induction quads with
  | nil => intro m p; simp
  | cons q t ih =>
    intro m p
    rw [List.foldl_cons, ih, List.countP_cons]
    rcases hq : propOfProofId q.subject with _ | k
    · simp [bumpMatched, hq]
    · by_cases hpk : p = k
      · subst hpk
        simp [bumpMatched, hq, getCount_bumpCount]
      · have : (some k == some p) = false := by
          simp
          exact fun h => hpk h.symm
        simp [bumpMatched, hq, getCount_bumpCount, hpk, this]

theorem mem_counts_iff (quads : List Stmt) (p : String) (n : Nat) :
    (p, n) ∈ quads.foldl bumpMatched [] ↔
      n = quads.countP (fun q => propOfProofId q.subject == some p) ∧
        0 < n := by
  rw [mem_iff_getCount (keysNodup_foldl_bumpMatched quads [] (by simp))]
  have hgd := getD_foldl_bumpMatched quads [] p
  have hnone := none_foldl_bumpMatched quads [] p
  rw [show getCount ([] : List (String × Nat)) p = none from rfl] at hgd hnone
  rw [Option.getD_none] at hgd
  rw [Nat.zero_add] at hgd
  constructor
  · intro h
    rw [h, Option.getD_some] at hgd
    refine ⟨hgd, ?_⟩
    by_contra hzero
    have hn0 : n = 0 := by omega
    have : getCount (quads.foldl bumpMatched []) p = none := by
      rw [hnone]
      exact ⟨rfl, by omega⟩
    rw [this] at h
    exact Option.noConfusion h
  · rintro ⟨hn, hpos⟩
    have hne : getCount (quads.foldl bumpMatched []) p ≠ none := by
      intro hcontr
      rw [hnone] at hcontr
      omega
    rcases hv : getCount (quads.foldl bumpMatched []) p with _ | v
    · exact absurd hv hne
    · rw [hv, Option.getD_some] at hgd
      rw [hgd, hn]

theorem insertDesc_perm (x : String × Nat) :
    ∀ l, (insertDesc x l).Perm (x :: l) := by
  intro l
  induction l with
  | nil => exact List.Perm.refl _
  | cons y ys ih =>
    unfold insertDesc
    split
    · exact (ih.cons y).trans (List.Perm.swap x y ys)
    · exact List.Perm.refl _

theorem sortDesc_perm (l : List (String × Nat)) : (sortDesc l).Perm l := by
  have key : ∀ (t acc : List (String × Nat)),
      (t.foldl (fun acc x => insertDesc x acc) acc).Perm (acc ++ t) := by
    intro t
    induction t with
    | nil => intro acc; simp
    | cons x t ih =>
      intro acc
      rw [List.foldl_cons]
      refine (ih (insertDesc x acc)).trans ?_
      refine (((insertDesc_perm x acc).append_right t).trans ?_)
      exact List.perm_middle.symm
  simpa [sortDesc] using key l []

theorem insertDesc_pairwise {l : List (String × Nat)} {x : String × Nat}
    (h : l.Pairwise fun a b => b.2 ≤ a.2) :
    (insertDesc x l).Pairwise fun a b => b.2 ≤ a.2 := by
  induction l with
  | nil => simp [insertDesc]
  | cons y ys ih =>
    rw [List.pairwise_cons] at h
    unfold insertDesc
    split
    · rename_i hxy
      rw [List.pairwise_cons]
      refine ⟨fun z hz => ?_, ih h.2⟩
      rcases List.mem_cons.mp ((insertDesc_perm x ys).mem_iff.mp hz)
        with rfl | hmem
      · exact hxy
      · exact h.1 z hmem
    · rename_i hxy
      push_neg at hxy
      rw [List.pairwise_cons]
      refine ⟨fun z hz => ?_, List.pairwise_cons.mpr h⟩
      rcases List.mem_cons.mp hz with rfl | hmem
      · exact le_of_lt hxy
      · exact le_trans (h.1 z hmem) (le_of_lt hxy)

theorem sortDesc_pairwise (l : List (String × Nat)) :
    (sortDesc l).Pairwise fun a b => b.2 ≤ a.2 := by
  have key : ∀ (t acc : List (String × Nat)),
      acc.Pairwise (fun a b => b.2 ≤ a.2) →
      (t.foldl (fun acc x => insertDesc x acc) acc).Pairwise
        fun a b => b.2 ≤ a.2 := by
    intro t
    induction t with
    | nil => intro acc h; exact h
    | cons x t ih =>
      intro acc h
      rw [List.foldl_cons]
      exact ih _ (insertDesc_pairwise h)
  exact key l [] (by simp)

/-! ## Claim theorems: multi-proof report -/

/-- C4 counterexample: the claim says the report groups *every* proof-typed
element by the proposition prefix of its id, but the source's regular
expression hardcodes the Part-I pattern `^(I\.prop\.\d+)`: with two Part-II
proofs `II.prop.3.proof1` / `II.prop.3.proof2` the report is empty, while the
claimed grouping (`claimMultiProofs`, positional prefix extraction) reports
`II.prop.3` with count 2. -/
theorem multi_proof_part_two_refuted :
    getPropositionsWithMultipleProofs
      [⟨"II.prop.3.proof1", "type", "Proof"⟩,
       ⟨"II.prop.3.proof2", "type", "Proof"⟩] = [] ∧
    claimMultiProofs
      [⟨"II.prop.3.proof1", "type", "Proof"⟩,
       ⟨"II.prop.3.proof2", "type", "Proof"⟩] = [("II.prop.3", 2)] ∧
    getPropositionsWithMultipleProofs
      [⟨"II.prop.3.proof1", "type", "Proof"⟩,
       ⟨"II.prop.3.proof2", "type", "Proof"⟩] ≠
      claimMultiProofs
        [⟨"II.prop.3.proof1", "type", "Proof"⟩,
         ⟨"II.prop.3.proof2", "type", "Proof"⟩] :=
  ⟨by decide, by decide, by decide⟩

/-- C4 amended: the multi-proof report groups the `(*, rdf:type, Proof)`
statements of the asserted store whose subject id matches the Part-I pattern
`I.prop.<number>` by that extracted prefix (statements whose id does not
match, e.g. Part-II proof ids, are ignored, and duplicate type statements are
counted per statement), and reports exactly the prefixes with more than one
such statement, in descending order of count; in particular, with proof-typed
elements `I.prop.11.proof1`, `I.prop.11.proof2`, `I.prop.11.proof3` present,
the report is `[(I.prop.11, 3)]`. -/
theorem multi_proof_report_amended :
    (∀ store : Store, (getPropositionsWithMultipleProofs store).Pairwise
        fun x y => y.2 ≤ x.2) ∧
    (∀ (store : Store) (prop : String) (n : Nat),
        (prop, n) ∈ getPropositionsWithMultipleProofs store ↔
          1 < n ∧ n = (getQuadsPO store "type" "Proof").countP
            fun q => propOfProofId q.subject == some prop) ∧
    getPropositionsWithMultipleProofs
      [⟨"I.prop.11.proof1", "type", "Proof"⟩,
       ⟨"I.prop.11.proof2", "type", "Proof"⟩,
       ⟨"I.prop.11.proof3", "type", "Proof"⟩] = [("I.prop.11", 3)] := by
  refine ⟨?_, ?_, by decide⟩
  · intro store
    simp only [getPropositionsWithMultipleProofs]
    exact sortDesc_pairwise _
  · intro store prop n
    simp only [getPropositionsWithMultipleProofs]
    rw [(sortDesc_perm _).mem_iff, List.mem_filter, mem_counts_iff]
    constructor
    · rintro ⟨⟨hn, hpos⟩, hgt⟩
      simp only [decide_eq_true_eq] at hgt
      exact ⟨hgt, hn⟩
    · rintro ⟨hgt, hn⟩
      exact ⟨⟨hn, by omega⟩, by simp [hgt]⟩
